import Mathlib

/-!
Verification development for the docln-fetch EPUB package assembly engine.

The Rust source is shallowly embedded: the novel/volume/chapter data model
(src/models.rs), the package-manifest / spine / navigation generation
(src/epub.rs, EpubGenerator::generate_epub_metadata), the archiver
(src/epub.rs, EpubGenerator::compress_epub and add_directory_to_zip), and the
chapter illustration processing (src/crawler/processor.rs and src/crawler.rs,
download_chapter_illustrations / download_illustration; the variant in
src/main.rs differs and is embedded separately).

Filesystem and network effects are modelled by explicit parameters: the
directory scan of already-written illustration files is a function
`Nat → Nat → List String`, download success is an oracle on URLs, and the
archiver's fallible steps are driven by a success oracle on step indices.
-/

namespace DoclnFetch

/-- Chapter record, from src/models.rs. -/
structure Chapter where
  title : String
  url : String
  has_illustrations : Bool
  xhtml_path : Option String
deriving Repr, DecidableEq

/-- Volume record, from src/models.rs. -/
structure Volume where
  title : String
  volume_id : String
  cover_image_path : Option String
  chapters : List Chapter
deriving Repr, DecidableEq

/-- Novel record, from src/models.rs. -/
structure NovelInfo where
  title : String
  author : String
  illustrator : Option String
  summary : String
  cover_image_path : Option String
  volumes : List Volume
  tags : List String
  url : String
deriving Repr, DecidableEq

/-! ### Decimal rendering of numbers

Rust's format! of a usize prints decimal digits; the width-3 variant pads
with leading zeros. -/

/-- Decimal string of a natural number (the rendering used by Rust format!). -/
def natStr (n : Nat) : String :=
  if n = 0 then "0" else String.mk (((Nat.digits 10 n).map Nat.digitChar).reverse)

/-- Zero-padded width-3 decimal, the Rust zero-padding format of width 3. -/
def pad3 (n : Nat) : String :=
  let s := natStr n
  if 3 ≤ s.length then s else String.mk (List.replicate (3 - s.length) '0') ++ s

theorem digitChar_isDigit : ∀ d : Nat, d < 10 → (Nat.digitChar d).isDigit = true := by
  decide

theorem digitChar_inj10 :
    ∀ a : Nat, a < 10 → ∀ b : Nat, b < 10 → Nat.digitChar a = Nat.digitChar b → a = b := by
  decide

theorem map_digitChar_inj :
    ∀ l1 l2 : List Nat, (∀ d ∈ l1, d < 10) → (∀ d ∈ l2, d < 10) →
      l1.map Nat.digitChar = l2.map Nat.digitChar → l1 = l2 := by
  intro l1
  induction l1 with
  | nil =>
    intro l2 _ _ h
    cases l2 with
    | nil => rfl
    | cons b bs => simp at h
  | cons a as ih =>
    intro l2 h1 h2 h
    cases l2 with
    | nil => simp at h
    | cons b bs =>
      simp only [List.map_cons, List.cons.injEq] at h
      have ha : a < 10 := h1 a (List.mem_cons_self a as)
      have hb : b < 10 := h2 b (List.mem_cons_self b bs)
      have hab : a = b := digitChar_inj10 a ha b hb h.1
      have hrest : as = bs := by
        refine ih bs (fun d hd => h1 d (List.mem_cons_of_mem a hd))
          (fun d hd => h2 d (List.mem_cons_of_mem b hd)) h.2
      rw [hab, hrest]

theorem natStr_all_digit (n : Nat) : ∀ c ∈ (natStr n).data, c.isDigit = true := by
  intro c hc
  unfold natStr at hc
  by_cases h : n = 0
  · simp [h] at hc
    subst hc
    decide
  · simp [h] at hc
    obtain ⟨d, hd, hdc⟩ := hc
    have : d < 10 := Nat.digits_lt_base (by norm_num) hd
    rw [← hdc]
    exact digitChar_isDigit d this

theorem natStr_inj {m n : Nat} (h : natStr m = natStr n) : m = n := by
  unfold natStr at h
  by_cases hm : m = 0 <;> by_cases hn : n = 0
  · rw [hm, hn]
  · exfalso
    simp [hm, hn] at h
    have hzero : ("0" : String).data = ['0'] := rfl
    have hdata := congrArg String.data h
    rw [hzero] at hdata
    simp only [String.data] at hdata
    have hlen := congrArg List.length hdata
    simp at hlen
    have hne : Nat.digits 10 n ≠ [] := Nat.digits_ne_nil_iff_ne_zero.mpr hn
    match hd : Nat.digits 10 n with
    | [] => exact hne hd
    | d :: ds =>
      rw [hd] at hlen
      simp at hlen
      rw [hd, hlen] at hdata
      simp at hdata
      have hmem : d ∈ Nat.digits 10 n := by rw [hd]; exact List.mem_cons_self d ds
      have hd10 : d < 10 := Nat.digits_lt_base (by norm_num) hmem
      have : d = 0 := digitChar_inj10 d hd10 0 (by norm_num) (by rw [← hdata]; decide)
      have hdig : Nat.digits 10 n = [0] := by rw [hd, hlen, this]
      have := Nat.ofDigits_digits 10 n
      rw [hdig] at this
      simp [Nat.ofDigits] at this
      exact hn this.symm
  · exfalso
    simp [hm, hn] at h
    have hzero : ("0" : String).data = ['0'] := rfl
    have hdata := congrArg String.data h
    rw [hzero] at hdata
    simp only [String.data] at hdata
    have hlen := congrArg List.length hdata
    simp at hlen
    have hne : Nat.digits 10 m ≠ [] := Nat.digits_ne_nil_iff_ne_zero.mpr hm
    match hd : Nat.digits 10 m with
    | [] => exact hne hd
    | d :: ds =>
      rw [hd] at hlen
      simp at hlen
      rw [hd, hlen] at hdata
      simp at hdata
      have hmem : d ∈ Nat.digits 10 m := by rw [hd]; exact List.mem_cons_self d ds
      have hd10 : d < 10 := Nat.digits_lt_base (by norm_num) hmem
      have : d = 0 := digitChar_inj10 d hd10 0 (by norm_num) (by rw [hdata]; decide)
      have hdig : Nat.digits 10 m = [0] := by rw [hd, hlen, this]
      have := Nat.ofDigits_digits 10 m
      rw [hdig] at this
      simp [Nat.ofDigits] at this
      exact hm this.symm
  · simp [hm, hn] at h
    have hdata := congrArg String.data h
    simp only [String.data] at hdata
    have := List.reverse_injective hdata
    have hdigs := map_digitChar_inj (Nat.digits 10 m) (Nat.digits 10 n)
      (fun d hd => Nat.digits_lt_base (by norm_num) hd)
      (fun d hd => Nat.digits_lt_base (by norm_num) hd) this
    have h1 := Nat.ofDigits_digits 10 m
    have h2 := Nat.ofDigits_digits 10 n
    rw [hdigs] at h1
    rw [← h1, h2]

/-- Splitting an append at a separator character absent from both prefixes is
injective on the components. -/
theorem append_sepchar_inj (sep : Char) :
    ∀ a1 a2 b1 b2 : List Char, sep ∉ a1 → sep ∉ a2 →
      a1 ++ sep :: b1 = a2 ++ sep :: b2 → a1 = a2 ∧ b1 = b2 := by
  intro a1
  induction a1 with
  | nil =>
    intro a2 b1 b2 _ h2 h
    cases a2 with
    | nil => simpa using h
    | cons x xs =>
      simp at h
      exact absurd (h.1 ▸ List.mem_cons_self x xs) h2
  | cons x xs ih =>
    intro a2 b1 b2 h1 h2 h
    cases a2 with
    | nil =>
      simp at h
      exact absurd (h.1 ▸ List.mem_cons_self x xs) h1
    | cons y ys =>
      simp only [List.cons_append, List.cons.injEq] at h
      have hxs : sep ∉ xs := fun hm => h1 (List.mem_cons_of_mem x hm)
      have hys : sep ∉ ys := fun hm => h2 (List.mem_cons_of_mem y hm)
      obtain ⟨ha, hb⟩ := ih ys b1 b2 hxs hys h.2
      exact ⟨by rw [h.1, ha], hb⟩

theorem underscore_not_mem_natStr (n : Nat) : '_' ∉ (natStr n).data := by
  intro h
  exact absurd (natStr_all_digit n '_' h) (by decide)

/-! ### Identifier and path formats, from src/epub.rs -/

/-- The fixed mimetype marker, src/epub.rs line 30. -/
def mimetypeContent : String := "application/epub+zip"

/-- Manifest/spine id of a package unit, rendered as chapter<v>_<c>.
Unit 0 of a volume is the synthetic volume-cover document. -/
def chapterUnitId (v c : Nat) : String :=
  "chapter" ++ natStr v ++ "_" ++ natStr c

/-- Manifest id of a volume cover image asset, rendered as volume<v>-cover. -/
def volumeCoverItemId (v : Nat) : String :=
  "volume" ++ natStr v ++ "-cover"

/-- Manifest id of an inline illustration, rendered as vol<v>_chap<c>_img<name>. -/
def imgItemId (v c : Nat) (fname : String) : String :=
  "vol" ++ natStr v ++ "_chap" ++ natStr c ++ "_img" ++ fname

/-- Package-relative path of the synthetic volume-cover document,
rendered as text/volume_NNN/chapter_000.xhtml with v zero-padded, 1-based. -/
def volumeCoverChapterPath (v : Nat) : String :=
  "text/volume_" ++ pad3 v ++ "/chapter_000.xhtml"

/-- Package-relative path under which the chapter processor writes a rendered
chapter (src/crawler/processor.rs line 100): text/volume_NNN/chapter_NNN.xhtml
with both ordinals 1-based. -/
def chapterXhtmlRelPath (v c : Nat) : String :=
  "text/volume_" ++ pad3 v ++ "/chapter_" ++ pad3 c ++ ".xhtml"

theorem chapterUnitId_data (v c : Nat) :
    (chapterUnitId v c).data
      = 'c' :: 'h' :: 'a' :: 'p' :: 't' :: 'e' :: 'r'
        :: ((natStr v).data ++ '_' :: (natStr c).data) := by
  have h1 : ("chapter" : String).data = ['c','h','a','p','t','e','r'] := rfl
  have h2 : ("_" : String).data = ['_'] := rfl
  simp [chapterUnitId, String.data_append, h1, h2]

theorem chapterUnitId_inj {v c w d : Nat}
    (h : chapterUnitId v c = chapterUnitId w d) : v = w ∧ c = d := by
  have hd := congrArg String.data h
  rw [chapterUnitId_data, chapterUnitId_data] at hd
  simp only [List.cons.injEq, true_and] at hd
  obtain ⟨ha, hb⟩ := append_sepchar_inj '_' _ _ _ _
    (underscore_not_mem_natStr v) (underscore_not_mem_natStr w) hd
  exact ⟨natStr_inj (String.ext ha), natStr_inj (String.ext hb)⟩

theorem chapterUnitId_ne_ncx (v c : Nat) : chapterUnitId v c ≠ "ncx" := by
  intro h
  have hd := congrArg String.data h
  rw [chapterUnitId_data] at hd
  simp at hd

theorem chapterUnitId_ne_cover_image (v c : Nat) :
    chapterUnitId v c ≠ "cover-image" := by
  intro h
  have hd := congrArg String.data h
  rw [chapterUnitId_data] at hd
  simp at hd

theorem chapterUnitId_ne_volumeCoverItemId (v c w : Nat) :
    chapterUnitId v c ≠ volumeCoverItemId w := by
  intro h
  have hd := congrArg String.data h
  rw [chapterUnitId_data] at hd
  have h1 : ("volume" : String).data = ['v','o','l','u','m','e'] := rfl
  simp [volumeCoverItemId, String.data_append, h1] at hd

theorem chapterUnitId_ne_imgItemId (v c w d : Nat) (fname : String) :
    chapterUnitId v c ≠ imgItemId w d fname := by
  intro h
  have hd := congrArg String.data h
  rw [chapterUnitId_data] at hd
  have h1 : ("vol" : String).data = ['v','o','l'] := rfl
  simp [imgItemId, String.data_append, h1] at hd

/-! ### Rust Path::file_name for the unix-style relative paths used here -/

/-- Split a character list at every '/' (components of a unix path). -/
def splitSlash : List Char → List (List Char)
  | [] => [[]]
  | c :: cs =>
    match splitSlash cs with
    | [] => [[]]
    | a :: rest => if c = '/' then [] :: a :: rest else (c :: a) :: rest

theorem splitSlash_cons (c : Char) (cs : List Char) :
    splitSlash (c :: cs)
      = match splitSlash cs with
        | [] => [[]]
        | a :: rest => if c = '/' then [] :: a :: rest else (c :: a) :: rest := rfl

theorem splitSlash_ne_nil (l : List Char) : splitSlash l ≠ [] := by
  cases l with
  | nil => simp [splitSlash]
  | cons c cs =>
    unfold splitSlash
    match h : splitSlash cs with
    | [] => simp
    | a :: rest =>
      by_cases hc : c = '/' <;> simp [hc]

theorem splitSlash_no_slash (a : List Char) (h : '/' ∉ a) : splitSlash a = [a] := by
  induction a with
  | nil => rfl
  | cons c cs ih =>
    have hc : c ≠ '/' := fun hcc => h (hcc ▸ List.mem_cons_self c cs)
    have hcs : '/' ∉ cs := fun hm => h (List.mem_cons_of_mem c hm)
    unfold splitSlash
    rw [ih hcs]
    simp [hc]

theorem splitSlash_append (a : List Char) (h : '/' ∉ a) (b : List Char) :
    splitSlash (a ++ '/' :: b) = a :: splitSlash b := by
  induction a with
  | nil =>
    simp only [List.nil_append]
    rw [splitSlash_cons]
    match hb : splitSlash b with
    | [] => exact absurd hb (splitSlash_ne_nil b)
    | x :: rest => simp
  | cons c cs ih =>
    have hc : c ≠ '/' := fun hcc => h (hcc ▸ List.mem_cons_self c cs)
    have hcs : '/' ∉ cs := fun hm => h (List.mem_cons_of_mem c hm)
    simp only [List.cons_append]
    rw [splitSlash_cons, ih hcs]
    simp [hc]

/-- Rust std Path::file_name, modelled for the relative unix-style paths this
program builds: the last path component, unless it is empty, "." or "..". -/
def fileName (p : String) : Option String :=
  let comps := (splitSlash p.data).filter (fun l => decide (l ≠ [] ∧ l ≠ ['.']))
  match comps.getLast? with
  | none => none
  | some last => if last = ['.', '.'] then none else some (String.mk last)

/-- Rust std Path::extension: the part of the file name after its last dot,
none when the file name has no dot or only a leading dot. -/
def pathExtension (p : String) : Option String :=
  match fileName p with
  | none => none
  | some f =>
    let rev := f.data.reverse
    let extPart := rev.takeWhile (fun c => decide (c ≠ '.'))
    if extPart.length = rev.length then none
    else if rev.drop (extPart.length + 1) = [] then none
    else some (String.mk extPart.reverse)

/-! ### Package manifest, spine, guide and navigation
(src/epub.rs, EpubGenerator::generate_epub_metadata) -/

/-- One item element of the manifest block. -/
structure ManifestItem where
  id : String
  href : String
  media_type : String
deriving Repr, DecidableEq

/-- Media type chosen for a cover or illustration file, src/epub.rs lines
103 and 127: png iff the file name ends with ".png", else jpeg. -/
def imageMediaType (fname : String) : String :=
  if fname.endsWith ".png" then "image/png" else "image/jpeg"

/-- Volume cover image manifest items, src/epub.rs lines 99-109.
i is the 0-based volume index of the first volume in the list. -/
def volumeCoverItemsAux : Nat → List Volume → List ManifestItem
  | _, [] => []
  | i, v :: vs =>
    (match v.cover_image_path with
     | none => []
     | some p =>
       match fileName p with
       | none => []
       | some fname =>
         [⟨volumeCoverItemId (i + 1), "images/" ++ fname, imageMediaType fname⟩])
    ++ volumeCoverItemsAux (i + 1) vs

/-- File-name filter applied to a scanned illustration directory entry,
src/epub.rs line 126. -/
def isImageFileName (f : String) : Bool :=
  f.endsWith ".jpeg" || f.endsWith ".jpg" || f.endsWith ".png"

/-- Directory listing of OEBPS/images/volume_<v>/chapter_<c> (1-based, the
plain files found on disk); an absent directory is the empty list. -/
def ScanFS : Type := Nat → Nat → List String

/-- Illustration manifest items contributed by one chapter,
src/epub.rs lines 112-141 (inner loop). -/
def chapterImageItems (fs : ScanFS) (i j : Nat) (ch : Chapter) : List ManifestItem :=
  if ch.has_illustrations then
    (fs (i + 1) (j + 1)).filterMap fun f =>
      if isImageFileName f then
        some ⟨imgItemId (i + 1) (j + 1) f,
              "images/volume_" ++ pad3 (i + 1) ++ "/chapter_" ++ pad3 (j + 1) ++ "/" ++ f,
              imageMediaType f⟩
      else none
  else []

/-- Illustration manifest items of one volume (loop over chapters). -/
def imageItemsChAux (fs : ScanFS) (i : Nat) : Nat → List Chapter → List ManifestItem
  | _, [] => []
  | j, ch :: rest => chapterImageItems fs i j ch ++ imageItemsChAux fs i (j + 1) rest

/-- Illustration manifest items (loop over volumes), src/epub.rs lines 112-141. -/
def imageItemsAux (fs : ScanFS) : Nat → List Volume → List ManifestItem
  | _, [] => []
  | i, v :: vs => imageItemsChAux fs i 0 v.chapters ++ imageItemsAux fs (i + 1) vs

/-- Content-document manifest items of one volume's chapters,
src/epub.rs lines 153-163: an item per chapter whose xhtml_path is present and
has a valid file name, with href the stored xhtml_path itself. -/
def chapterUnitItemsChAux (i : Nat) : Nat → List Chapter → List ManifestItem
  | _, [] => []
  | j, ch :: rest =>
    (match ch.xhtml_path with
     | none => []
     | some p =>
       match fileName p with
       | none => []
       | some _ => [⟨chapterUnitId (i + 1) (j + 1), p, "application/xhtml+xml"⟩])
    ++ chapterUnitItemsChAux i (j + 1) rest

/-- Content-document manifest items, src/epub.rs lines 144-164: per volume,
a chapter-0 item when the volume has a resolved cover, then the chapter items. -/
def chapterUnitItemsAux : Nat → List Volume → List ManifestItem
  | _, [] => []
  | i, v :: vs =>
    (if v.cover_image_path.isSome then
      [⟨chapterUnitId (i + 1) 0, volumeCoverChapterPath (i + 1), "application/xhtml+xml"⟩]
     else [])
    ++ chapterUnitItemsChAux i 0 v.chapters
    ++ chapterUnitItemsAux (i + 1) vs

/-- The manifest block, src/epub.rs lines 91-164, in emission order. -/
def manifestItems (fs : ScanFS) (n : NovelInfo) : List ManifestItem :=
  ⟨"ncx", "toc.ncx", "application/x-dtbncx+xml"⟩
    :: ⟨"cover-image", "images/cover.jpg", "image/jpeg"⟩
    :: (volumeCoverItemsAux 0 n.volumes
        ++ imageItemsAux fs 0 n.volumes
        ++ chapterUnitItemsAux 0 n.volumes)

def manifestIds (fs : ScanFS) (n : NovelInfo) : List String :=
  (manifestItems fs n).map (fun it => it.id)

/-- Spine idrefs of one volume's chapters, src/epub.rs lines 179-184. -/
def spineChAux (i : Nat) : Nat → List Chapter → List String
  | _, [] => []
  | j, ch :: rest =>
    (if ch.xhtml_path.isSome then [chapterUnitId (i + 1) (j + 1)] else [])
    ++ spineChAux i (j + 1) rest

/-- The spine block, src/epub.rs lines 172-185: per volume, the chapter-0 idref
when the volume has a resolved cover, then an idref per present chapter. -/
def spineVolAux : Nat → List Volume → List String
  | _, [] => []
  | i, v :: vs =>
    (if v.cover_image_path.isSome then [chapterUnitId (i + 1) 0] else [])
    ++ spineChAux i 0 v.chapters
    ++ spineVolAux (i + 1) vs

def spineIds (n : NovelInfo) : List String := spineVolAux 0 n.volumes

/-- The guide block, src/epub.rs lines 189-196: one unconditional cover
reference (type, title, href). -/
def guideRefs (_n : NovelInfo) : List (String × String × String) :=
  [("cover", "Cover", "images/cover.jpg")]

/-- One navigation point (label text and content src). -/
structure NavPoint where
  label : String
  src : String
deriving Repr, DecidableEq

/-- One top-level navigation node: a volume with its chapter children. -/
structure NavVolume where
  label : String
  src : String
  children : List NavPoint
deriving Repr, DecidableEq

/-- Navigation tree, src/epub.rs lines 221-264: for each volume whose filtered
processed-chapter list is nonempty, one top-level node whose target is the
chapter-0 document when the volume has a resolved cover and else the first
processed chapter's xhtml_path, with one child per processed chapter. -/
def navVolAux : Nat → List Volume → List NavVolume
  | _, [] => []
  | i, v :: vs =>
    (match v.chapters.filter (fun c => c.xhtml_path.isSome) with
     | [] => []
     | first :: _ =>
       [⟨v.title,
         (if v.cover_image_path.isSome then volumeCoverChapterPath (i + 1)
          else first.xhtml_path.getD ""),
         (v.chapters.filter (fun c => c.xhtml_path.isSome)).map
           (fun c => ⟨c.title, c.xhtml_path.getD ""⟩)⟩])
    ++ navVolAux (i + 1) vs

def navTree (n : NovelInfo) : List NavVolume := navVolAux 0 n.volumes

/-- Flat emission order of navigation points with their playOrder values:
the counter starts at the given value and increments once per emitted point,
parent or child, exactly as nav_point_counter does in src/epub.rs
lines 222-259. -/
def navFlatChildren : Nat → List NavPoint → List (Nat × NavPoint)
  | _, [] => []
  | k, c :: cs => (k, c) :: navFlatChildren (k + 1) cs

def navFlatAux : Nat → List NavVolume → List (Nat × NavPoint)
  | _, [] => []
  | k, nv :: rest =>
    (k, ⟨nv.label, nv.src⟩)
      :: (navFlatChildren (k + 1) nv.children
          ++ navFlatAux (k + 1 + nv.children.length) rest)

/-- The navigation document's points in document order, each with its
playOrder value; the counter starts at 1 (src/epub.rs line 222). -/
def navFlat (n : NovelInfo) : List (Nat × NavPoint) := navFlatAux 1 (navTree n)

/-! ### Shape lemmas for spine and manifest sections -/

theorem mem_spineChAux {s : String} {i : Nat} :
    ∀ j cs, s ∈ spineChAux i j cs →
      ∃ t ch, cs[t]? = some ch ∧ ch.xhtml_path.isSome = true
        ∧ s = chapterUnitId (i + 1) (j + t + 1) := by
  intro j cs
  induction cs generalizing j with
  | nil => simp [spineChAux]
  | cons c rest ih =>
    intro hmem
    unfold spineChAux at hmem
    rcases List.mem_append.mp hmem with hl | hr
    · by_cases hc : c.xhtml_path.isSome
      · simp [hc] at hl
        exact ⟨0, c, by simp, hc, by simpa using hl⟩
      · simp [hc] at hl
    · obtain ⟨t, ch, hget, hsome, hs⟩ := ih (j + 1) hr
      refine ⟨t + 1, ch, by simpa using hget, hsome, ?_⟩
      rw [hs]
      congr 1
      omega

theorem mem_spineVolAux {s : String} :
    ∀ i vs, s ∈ spineVolAux i vs →
      ∃ t v, vs[t]? = some v ∧
        ((v.cover_image_path.isSome = true ∧ s = chapterUnitId (i + t + 1) 0) ∨
         ∃ u ch, v.chapters[u]? = some ch ∧ ch.xhtml_path.isSome = true
           ∧ s = chapterUnitId (i + t + 1) (u + 1)) := by
  intro i vs
  induction vs generalizing i with
  | nil => simp [spineVolAux]
  | cons v rest ih =>
    intro hmem
    unfold spineVolAux at hmem
    rcases List.mem_append.mp hmem with hl | hr
    · rcases List.mem_append.mp hl with hc | hch
      · by_cases hcov : v.cover_image_path.isSome
        · simp [hcov] at hc
          exact ⟨0, v, by simp, Or.inl ⟨hcov, by simpa using hc⟩⟩
        · simp [hcov] at hc
      · obtain ⟨u, ch, hget, hsome, hs⟩ := mem_spineChAux 0 v.chapters hch
        refine ⟨0, v, by simp, Or.inr ⟨u, ch, hget, hsome, ?_⟩⟩
        rw [hs]
        congr 1
        omega
    · obtain ⟨t, w, hget, hcase⟩ := ih (i + 1) hr
      refine ⟨t + 1, w, by simpa using hget, ?_⟩
      rcases hcase with ⟨hcov, hs⟩ | ⟨u, ch, hget2, hsome, hs⟩
      · exact Or.inl ⟨hcov, by rw [hs]; congr 1; omega⟩
      · exact Or.inr ⟨u, ch, hget2, hsome, by rw [hs]; congr 1; omega⟩

theorem mem_volumeCoverItemsAux {it : ManifestItem} :
    ∀ i vs, it ∈ volumeCoverItemsAux i vs → ∃ w, it.id = volumeCoverItemId w := by
  intro i vs
  induction vs generalizing i with
  | nil => simp [volumeCoverItemsAux]
  | cons v rest ih =>
    intro hmem
    unfold volumeCoverItemsAux at hmem
    rcases List.mem_append.mp hmem with hl | hr
    · split at hl
      · simp at hl
      · split at hl
        · simp at hl
        · simp at hl
          exact ⟨i + 1, by rw [hl]⟩
    · exact ih (i + 1) hr

theorem mem_chapterImageItems {it : ManifestItem} {fs : ScanFS} {i j : Nat} {ch : Chapter}
    (hmem : it ∈ chapterImageItems fs i j ch) :
    ∃ w d f, it.id = imgItemId w d f := by
  unfold chapterImageItems at hmem
  by_cases hill : ch.has_illustrations
  · simp only [hill, if_true] at hmem
    obtain ⟨f, _, hf⟩ := List.mem_filterMap.mp hmem
    by_cases himg : isImageFileName f
    · simp [himg] at hf
      exact ⟨i + 1, j + 1, f, by rw [← hf]⟩
    · simp [himg] at hf
  · simp [hill] at hmem

theorem mem_imageItemsChAux {it : ManifestItem} {fs : ScanFS} {i : Nat} :
    ∀ j cs, it ∈ imageItemsChAux fs i j cs → ∃ w d f, it.id = imgItemId w d f := by
  intro j cs
  induction cs generalizing j with
  | nil => simp [imageItemsChAux]
  | cons c rest ih =>
    intro hmem
    unfold imageItemsChAux at hmem
    rcases List.mem_append.mp hmem with hl | hr
    · exact mem_chapterImageItems hl
    · exact ih (j + 1) hr

theorem mem_imageItemsAux {it : ManifestItem} {fs : ScanFS} :
    ∀ i vs, it ∈ imageItemsAux fs i vs → ∃ w d f, it.id = imgItemId w d f := by
  intro i vs
  induction vs generalizing i with
  | nil => simp [imageItemsAux]
  | cons v rest ih =>
    intro hmem
    unfold imageItemsAux at hmem
    rcases List.mem_append.mp hmem with hl | hr
    · exact mem_imageItemsChAux 0 v.chapters hl
    · exact ih (i + 1) hr

theorem mem_chapterUnitItemsChAux {it : ManifestItem} {i : Nat} :
    ∀ j cs, it ∈ chapterUnitItemsChAux i j cs →
      ∃ u ch p, cs[u]? = some ch ∧ ch.xhtml_path = some p ∧ (fileName p).isSome = true
        ∧ it = ⟨chapterUnitId (i + 1) (j + u + 1), p, "application/xhtml+xml"⟩ := by
  intro j cs
  induction cs generalizing j with
  | nil => simp [chapterUnitItemsChAux]
  | cons c rest ih =>
    intro hmem
    unfold chapterUnitItemsChAux at hmem
    rcases List.mem_append.mp hmem with hl | hr
    · split at hl
      · simp at hl
      · rename_i p hp
        split at hl
        · simp at hl
        · rename_i fname hf
          simp at hl
          exact ⟨0, c, p, by simp, hp, by rw [hf]; rfl, by simpa using hl⟩
    · obtain ⟨u, ch, p, hget, hp, hf, hit⟩ := ih (j + 1) hr
      refine ⟨u + 1, ch, p, by simpa using hget, hp, hf, ?_⟩
      rw [hit]
      have : j + 1 + u + 1 = j + (u + 1) + 1 := by omega
      rw [this]

theorem mem_chapterUnitItemsAux {it : ManifestItem} :
    ∀ i vs, it ∈ chapterUnitItemsAux i vs →
      ∃ t v, vs[t]? = some v ∧
        ((v.cover_image_path.isSome = true
            ∧ it = ⟨chapterUnitId (i + t + 1) 0, volumeCoverChapterPath (i + t + 1),
                    "application/xhtml+xml"⟩) ∨
         ∃ u ch p, v.chapters[u]? = some ch ∧ ch.xhtml_path = some p
           ∧ (fileName p).isSome = true
           ∧ it = ⟨chapterUnitId (i + t + 1) (u + 1), p, "application/xhtml+xml"⟩) := by
  intro i vs
  induction vs generalizing i with
  | nil => simp [chapterUnitItemsAux]
  | cons v rest ih =>
    intro hmem
    unfold chapterUnitItemsAux at hmem
    rcases List.mem_append.mp hmem with hl | hr
    · rcases List.mem_append.mp hl with hc | hch
      · by_cases hcov : v.cover_image_path.isSome
        · simp [hcov] at hc
          exact ⟨0, v, by simp, Or.inl ⟨hcov, by simpa using hc⟩⟩
        · simp [hcov] at hc
      · obtain ⟨u, ch, p, hget, hp, hf, hit⟩ := mem_chapterUnitItemsChAux 0 v.chapters hch
        exact ⟨0, v, by simp, Or.inr ⟨u, ch, p, hget, hp, hf, by simpa using hit⟩⟩
    · obtain ⟨t, w, hget, hcase⟩ := ih (i + 1) hr
      refine ⟨t + 1, w, by simpa using hget, ?_⟩
      have harith : i + 1 + t + 1 = i + (t + 1) + 1 := by omega
      rcases hcase with ⟨hcov, hit⟩ | ⟨u, ch, p, hget2, hp, hf, hit⟩
      · exact Or.inl ⟨hcov, by rw [hit, harith]⟩
      · exact Or.inr ⟨u, ch, p, hget2, hp, hf, by rw [hit, harith]⟩

/-! ### Spec-side formulations (worded from the claims) and bridging lemmas -/

/-- The reading order as the specification words it: for each volume in order,
a volume-cover unit exactly when the volume has a resolved cover asset path,
then one chapter unit per chapter whose rendered content document path is
present, in original chapter order, with 1-based ordinals. -/
def specSpine (n : NovelInfo) : List String :=
  n.volumes.enum.flatMap fun iv =>
    (if iv.2.cover_image_path.isSome then [chapterUnitId (iv.1 + 1) 0] else [])
    ++ iv.2.chapters.enum.filterMap fun jc =>
        if jc.2.xhtml_path.isSome then some (chapterUnitId (iv.1 + 1) (jc.1 + 1)) else none

/-- All package-relative paths of chapters whose fetch succeeded. -/
def presentPaths (n : NovelInfo) : List String :=
  n.volumes.flatMap fun v => v.chapters.filterMap fun c => c.xhtml_path

theorem spineChAux_eq (i : Nat) :
    ∀ j cs, spineChAux i j cs
      = (List.enumFrom j cs).filterMap fun jc =>
          if jc.2.xhtml_path.isSome then some (chapterUnitId (i + 1) (jc.1 + 1)) else none := by
  intro j cs
  induction cs generalizing j with
  | nil => simp [spineChAux]
  | cons c rest ih =>
    rw [spineChAux, List.enumFrom_cons, List.filterMap_cons, ih (j + 1)]
    by_cases hc : c.xhtml_path.isSome <;> simp [hc]

theorem spineVolAux_eq :
    ∀ i vs, spineVolAux i vs
      = (List.enumFrom i vs).flatMap fun iv =>
          (if iv.2.cover_image_path.isSome then [chapterUnitId (iv.1 + 1) 0] else [])
          ++ iv.2.chapters.enum.filterMap fun jc =>
              if jc.2.xhtml_path.isSome then some (chapterUnitId (iv.1 + 1) (jc.1 + 1))
              else none := by
  intro i vs
  induction vs generalizing i with
  | nil => simp [spineVolAux]
  | cons v rest ih =>
    rw [spineVolAux, List.enumFrom_cons, List.flatMap_cons, ih (i + 1),
      spineChAux_eq i 0 v.chapters, List.enum_eq_enumFrom, List.append_assoc]

theorem spineIds_eq_specSpine (n : NovelInfo) : spineIds n = specSpine n := by
  rw [spineIds, specSpine, spineVolAux_eq 0 n.volumes, List.enum_eq_enumFrom]

theorem navVolAux_children_src :
    ∀ i vs, ∀ nv ∈ navVolAux i vs, ∀ child ∈ nv.children,
      ∃ v ∈ vs, ∃ ch ∈ v.chapters, ch.xhtml_path = some child.src := by
  intro i vs
  induction vs generalizing i with
  | nil => simp [navVolAux]
  | cons v rest ih =>
    intro nv hnv child hchild
    rw [navVolAux] at hnv
    rcases List.mem_append.mp hnv with hl | hr
    · rcases hfil : v.chapters.filter (fun c => c.xhtml_path.isSome) with _ | ⟨first, tail⟩
      · rw [hfil] at hl
        simp at hl
      · rw [hfil] at hl
        simp at hl
        rw [hl] at hchild
        simp only [NavVolume.children] at hchild
        have hchild2 : child ∈ (List.filter (fun c => c.xhtml_path.isSome) v.chapters).map
            (fun c => ({ label := c.title, src := c.xhtml_path.getD "" } : NavPoint)) := by
          rw [hfil]
          simpa using hchild
        obtain ⟨c, hc, hcchild⟩ := List.mem_map.mp hchild2
        have hcmem2 := List.mem_filter.mp hc
        obtain ⟨p, hp⟩ := Option.isSome_iff_exists.mp hcmem2.2
        refine ⟨v, List.mem_cons_self v rest, c, hcmem2.1, ?_⟩
        rw [hp, ← hcchild]
        simp [hp]
    · obtain ⟨w, hw, ch, hch, hpath⟩ := ih (i + 1) nv hr child hchild
      exact ⟨w, List.mem_cons_of_mem v hw, ch, hch, hpath⟩

theorem mem_presentPaths {n : NovelInfo} {p : String}
    (h : ∃ v ∈ n.volumes, ∃ ch ∈ v.chapters, ch.xhtml_path = some p) :
    p ∈ presentPaths n := by
  obtain ⟨v, hv, ch, hch, hp⟩ := h
  rw [presentPaths]
  exact List.mem_flatMap.mpr ⟨v, hv, List.mem_filterMap.mpr ⟨ch, hch, hp⟩⟩

/-- An id of the chapter-unit form is outside the fixed, volume-cover and
illustration sections of the manifest; if it is in the manifest at all it is a
chapter-unit item. -/
theorem chapterUnitId_mem_manifest {fs : ScanFS} {n : NovelInfo} {a b : Nat}
    (h : chapterUnitId a b ∈ manifestIds fs n) :
    ∃ it ∈ chapterUnitItemsAux 0 n.volumes, it.id = chapterUnitId a b := by
  rw [manifestIds, manifestItems] at h
  rw [List.map_cons, List.map_cons, List.map_append, List.map_append] at h
  rcases List.mem_cons.mp h with h1 | h
  · exact absurd h1 (chapterUnitId_ne_ncx a b)
  rcases List.mem_cons.mp h with h1 | h
  · exact absurd h1 (chapterUnitId_ne_cover_image a b)
  rcases List.mem_append.mp h with h12 | h3
  · rcases List.mem_append.mp h12 with h1 | h2
    · obtain ⟨it, hit, hid⟩ := List.mem_map.mp h1
      obtain ⟨w, hw⟩ := mem_volumeCoverItemsAux 0 n.volumes hit
      rw [hw] at hid
      exact absurd hid.symm (chapterUnitId_ne_volumeCoverItemId a b w)
    · obtain ⟨it, hit, hid⟩ := List.mem_map.mp h2
      obtain ⟨w, d, f, hw⟩ := mem_imageItemsAux 0 n.volumes hit
      rw [hw] at hid
      exact absurd hid.symm (chapterUnitId_ne_imgItemId a b w d f)
  · obtain ⟨it, hit, hid⟩ := List.mem_map.mp h3
    exact ⟨it, hit, hid⟩

/-! ### Claim C1 -/

/-- C1: the spine lists, for each volume in order, a volume-cover unit
(id chapter(v)_0) exactly when the volume has a resolved cover asset path,
then one chapter unit (id chapter(v)_(c), c the 1-based chapter index) for
exactly the chapters whose rendered content document path is present, in
original chapter order; a chapter whose content document path is absent
appears nowhere in the manifest, the spine, or the navigation document. -/
theorem c1_spine_reading_order (fs : ScanFS) (n : NovelInfo) :
    spineIds n = specSpine n
    ∧ (∀ i j vol ch, n.volumes[i]? = some vol → vol.chapters[j]? = some ch →
        ch.xhtml_path = none →
          chapterUnitId (i + 1) (j + 1) ∉ manifestIds fs n
          ∧ chapterUnitId (i + 1) (j + 1) ∉ spineIds n)
    ∧ (∀ nv ∈ navTree n, ∀ child ∈ nv.children, child.src ∈ presentPaths n) := by
  refine ⟨spineIds_eq_specSpine n, ?_, ?_⟩
  · intro i j vol ch hvol hch hnone
    constructor
    · intro hmem
      obtain ⟨it, hit, hid⟩ := chapterUnitId_mem_manifest hmem
      obtain ⟨t, v, hget, hcase⟩ := mem_chapterUnitItemsAux 0 n.volumes hit
      rcases hcase with ⟨hcov, hiteq⟩ | ⟨u, ch2, p, hget2, hp, hf, hiteq⟩
      · rw [hiteq] at hid
        simp only [ManifestItem.id] at hid
        have := chapterUnitId_inj hid
        omega
      · rw [hiteq] at hid
        simp only [ManifestItem.id] at hid
        obtain ⟨hvw, hcw⟩ := chapterUnitId_inj hid
        have ht : t = i := by omega
        have hu : u = j := by omega
        rw [ht] at hget
        rw [hget] at hvol
        cases hvol
        rw [hu] at hget2
        rw [hget2] at hch
        cases hch
        rw [hnone] at hp
        cases hp
    · intro hmem
      obtain ⟨t, v, hget, hcase⟩ := mem_spineVolAux 0 n.volumes hmem
      rcases hcase with ⟨hcov, hs⟩ | ⟨u, ch2, hget2, hsome, hs⟩
      · have := chapterUnitId_inj hs
        omega
      · obtain ⟨hvw, hcw⟩ := chapterUnitId_inj hs
        have ht : t = i := by omega
        have hu : u = j := by omega
        rw [ht] at hget
        rw [hget] at hvol
        cases hvol
        rw [hu] at hget2
        rw [hget2] at hch
        cases hch
        rw [hnone] at hsome
        simp at hsome
  · intro nv hnv child hchild
    have := navVolAux_children_src 0 n.volumes nv hnv child hchild
    exact mem_presentPaths this

/-- C1 witness: a concrete novel with a failed chapter; its unit id is in
neither the manifest nor the spine. -/
theorem c1_spine_reading_order_witness :
    chapterUnitId 1 2 ∉ manifestIds (fun _ _ => [])
        ⟨"t", "a", none, "", none, [⟨"v1", "#vol1", none,
          [⟨"c1", "u1", false, some "text/volume_001/chapter_001.xhtml"⟩,
           ⟨"c2", "u2", false, none⟩]⟩], [], "u"⟩
      ∧ chapterUnitId 1 2 ∉ spineIds
        ⟨"t", "a", none, "", none, [⟨"v1", "#vol1", none,
          [⟨"c1", "u1", false, some "text/volume_001/chapter_001.xhtml"⟩,
           ⟨"c2", "u2", false, none⟩]⟩], [], "u"⟩ := by
  exact (c1_spine_reading_order (fun _ _ => []) _).2.1 0 1
    ⟨"v1", "#vol1", none,
      [⟨"c1", "u1", false, some "text/volume_001/chapter_001.xhtml"⟩,
       ⟨"c2", "u2", false, none⟩]⟩
    ⟨"c2", "u2", false, none⟩ rfl rfl rfl

/-! ### The pipeline path shape and its file name -/

theorem pad3_all_digit (n : Nat) : ∀ c ∈ (pad3 n).data, c.isDigit = true := by
  intro c hc
  unfold pad3 at hc
  by_cases h : 3 ≤ (natStr n).length
  · simp only [h, if_true] at hc
    exact natStr_all_digit n c hc
  · simp only [h, if_false] at hc
    rw [String.data_append] at hc
    rcases List.mem_append.mp hc with hl | hr
    · have : c ∈ List.replicate (3 - (natStr n).length) '0' := hl
      rw [List.eq_of_mem_replicate this]
      decide
    · exact natStr_all_digit n c hr

theorem slash_not_mem_pad3 (n : Nat) : '/' ∉ (pad3 n).data := by
  intro h
  exact absurd (pad3_all_digit n '/' h) (by decide)

theorem chapterXhtmlRelPath_data (v c : Nat) :
    (chapterXhtmlRelPath v c).data
      = ['t','e','x','t'] ++ '/' ::
          (('v':: 'o':: 'l':: 'u':: 'm':: 'e':: '_'::(pad3 v).data)
            ++ '/' :: ('c':: 'h':: 'a':: 'p':: 't':: 'e':: 'r':: '_'::
                ((pad3 c).data ++ ['.','x','h','t','m','l']))) := by
  have h1 : ("text/volume_" : String).data
      = ['t','e','x','t','/','v','o','l','u','m','e','_'] := rfl
  have h2 : ("/chapter_" : String).data = ['/','c','h','a','p','t','e','r','_'] := rfl
  have h3 : (".xhtml" : String).data = ['.','x','h','t','m','l'] := rfl
  simp [chapterXhtmlRelPath, String.data_append, h1, h2, h3]

theorem fileName_chapterXhtmlRelPath (v c : Nat) :
    fileName (chapterXhtmlRelPath v c) = some ("chapter_" ++ pad3 c ++ ".xhtml") := by
  have hs1 : ('/' : Char) ∉ (['t','e','x','t'] : List Char) := by decide
  have hs2 : ('/' : Char) ∉ 'v':: 'o':: 'l':: 'u':: 'm':: 'e':: '_'::(pad3 v).data := by
    intro h
    simp only [List.mem_cons] at h
    rcases h with h | h | h | h | h | h | h | h
    all_goals first
      | (exact absurd h (by decide))
      | (exact slash_not_mem_pad3 v h)
  have hs3 : ('/' : Char) ∉ 'c':: 'h':: 'a':: 'p':: 't':: 'e':: 'r':: '_'::
      ((pad3 c).data ++ ['.','x','h','t','m','l']) := by
    intro h
    simp only [List.mem_cons, List.mem_append] at h
    rcases h with h | h | h | h | h | h | h | h | h | h
    all_goals first
      | (exact absurd h (by decide))
      | (exact slash_not_mem_pad3 c h)
  have hsplit : splitSlash (chapterXhtmlRelPath v c).data
      = [['t','e','x','t'],
         'v':: 'o':: 'l':: 'u':: 'm':: 'e':: '_'::(pad3 v).data,
         'c':: 'h':: 'a':: 'p':: 't':: 'e':: 'r':: '_'::((pad3 c).data ++ ['.','x','h','t','m','l'])] := by
    rw [chapterXhtmlRelPath_data, splitSlash_append _ hs1, splitSlash_append _ hs2,
      splitSlash_no_slash _ hs3]
  rw [fileName]
  simp only [hsplit]
  simp [List.filter]
  apply String.ext
  have h4 : ("chapter_" : String).data = ['c','h','a','p','t','e','r','_'] := rfl
  have h5 : (".xhtml" : String).data = ['.','x','h','t','m','l'] := rfl
  simp [String.data_append, h4, h5]

/-! ### Spine and manifest agreement (claim C2) -/

theorem map_id_chapterUnitItemsChAux (i : Nat) :
    ∀ j cs, (∀ ch ∈ cs, ∀ p, ch.xhtml_path = some p → (fileName p).isSome = true) →
      (chapterUnitItemsChAux i j cs).map (fun it => it.id) = spineChAux i j cs := by
  intro j cs
  induction cs generalizing j with
  | nil => simp [chapterUnitItemsChAux, spineChAux]
  | cons c rest ih =>
    intro hfn
    rw [chapterUnitItemsChAux, spineChAux, List.map_append,
      ih (j + 1) (fun ch hch => hfn ch (List.mem_cons_of_mem c hch))]
    rcases hx : c.xhtml_path with _ | p
    · simp [hx]
    · have hf := hfn c (List.mem_cons_self c rest) p hx
      obtain ⟨fn, hfn2⟩ := Option.isSome_iff_exists.mp hf
      simp [hx, hfn2]

theorem map_id_chapterUnitItemsAux :
    ∀ i vs, (∀ v ∈ vs, ∀ ch ∈ v.chapters, ∀ p, ch.xhtml_path = some p →
        (fileName p).isSome = true) →
      (chapterUnitItemsAux i vs).map (fun it => it.id) = spineVolAux i vs := by
  intro i vs
  induction vs generalizing i with
  | nil => simp [chapterUnitItemsAux, spineVolAux]
  | cons v rest ih =>
    intro hfn
    rw [chapterUnitItemsAux, spineVolAux, List.map_append, List.map_append,
      ih (i + 1) (fun w hw => hfn w (List.mem_cons_of_mem v hw)),
      map_id_chapterUnitItemsChAux i 0 v.chapters (hfn v (List.mem_cons_self v rest))]
    by_cases hcov : v.cover_image_path.isSome <;> simp [hcov]

theorem nodup_spineChAux (i : Nat) : ∀ j cs, (spineChAux i j cs).Nodup := by
  intro j cs
  induction cs generalizing j with
  | nil => simp [spineChAux]
  | cons c rest ih =>
    rw [spineChAux, List.nodup_append]
    refine ⟨?_, ih (j + 1), ?_⟩
    · by_cases hc : c.xhtml_path.isSome <;> simp [hc]
    · intro s hs hs2
      by_cases hc : c.xhtml_path.isSome
      · simp [hc] at hs
        obtain ⟨t, ch, _, _, heq⟩ := mem_spineChAux (j + 1) rest hs2
        rw [hs] at heq
        have := (chapterUnitId_inj heq).2
        omega
      · simp [hc] at hs

theorem nodup_spineVolAux : ∀ i vs, (spineVolAux i vs).Nodup := by
  intro i vs
  induction vs generalizing i with
  | nil => simp [spineVolAux]
  | cons v rest ih =>
    rw [spineVolAux, List.append_assoc, List.nodup_append]
    refine ⟨?_, ?_, ?_⟩
    · by_cases hcov : v.cover_image_path.isSome <;> simp [hcov]
    · rw [List.nodup_append]
      refine ⟨nodup_spineChAux i 0 v.chapters, ih (i + 1), ?_⟩
      · intro s hs hs2
        obtain ⟨t, ch, _, _, heq⟩ := mem_spineChAux 0 v.chapters hs
        obtain ⟨t2, w, _, hcase⟩ := mem_spineVolAux (i + 1) rest hs2
        rcases hcase with ⟨_, heq2⟩ | ⟨u, ch2, _, _, heq2⟩
        all_goals
          rw [heq] at heq2
          have := (chapterUnitId_inj heq2).1
          omega
    · intro s hs hs2
      by_cases hcov : v.cover_image_path.isSome
      · simp [hcov] at hs
        rcases List.mem_append.mp hs2 with hch | hrest
        · obtain ⟨t, ch, _, _, heq⟩ := mem_spineChAux 0 v.chapters hch
          rw [hs] at heq
          have := (chapterUnitId_inj heq).2
          omega
        · obtain ⟨t2, w, _, hcase⟩ := mem_spineVolAux (i + 1) rest hrest
          rcases hcase with ⟨_, heq2⟩ | ⟨u, ch2, _, _, heq2⟩
          all_goals
            rw [hs] at heq2
            have := (chapterUnitId_inj heq2).1
            omega
      · simp [hcov] at hs

theorem nodup_spineIds (n : NovelInfo) : (spineIds n).Nodup :=
  nodup_spineVolAux 0 n.volumes

theorem chapterUnitItemsChAux_mem_intro (i : Nat) :
    ∀ j cs u ch p, cs[u]? = some ch → ch.xhtml_path = some p →
      (fileName p).isSome = true →
      (⟨chapterUnitId (i + 1) (j + u + 1), p, "application/xhtml+xml"⟩ : ManifestItem)
        ∈ chapterUnitItemsChAux i j cs := by
  intro j cs
  induction cs generalizing j with
  | nil => intro u ch p hget; simp at hget
  | cons c rest ih =>
    intro u ch p hget hp hf
    rw [chapterUnitItemsChAux]
    apply List.mem_append.mpr
    match u with
    | 0 =>
      left
      simp at hget
      rw [← hget] at hp
      obtain ⟨fn, hfn⟩ := Option.isSome_iff_exists.mp hf
      simp [hp, hfn]
    | Nat.succ u2 =>
      right
      have := ih (j + 1) u2 ch p (by simpa using hget) hp hf
      have harith : j + 1 + u2 + 1 = j + (u2 + 1) + 1 := by omega
      rw [harith] at this
      exact this

theorem chapterUnitItemsAux_mem_intro_chapter :
    ∀ i vs t v u ch p, vs[t]? = some v → v.chapters[u]? = some ch →
      ch.xhtml_path = some p → (fileName p).isSome = true →
      (⟨chapterUnitId (i + t + 1) (u + 1), p, "application/xhtml+xml"⟩ : ManifestItem)
        ∈ chapterUnitItemsAux i vs := by
  intro i vs
  induction vs generalizing i with
  | nil => intro t v u ch p hget; simp at hget
  | cons w rest ih =>
    intro t v u ch p hget hgetc hp hf
    rw [chapterUnitItemsAux]
    apply List.mem_append.mpr
    match t with
    | 0 =>
      left
      apply List.mem_append.mpr
      right
      simp at hget
      rw [hget]
      have := chapterUnitItemsChAux_mem_intro i 0 v.chapters u ch p hgetc hp hf
      simpa using this
    | Nat.succ t2 =>
      right
      have := ih (i + 1) t2 v u ch p (by simpa using hget) hgetc hp hf
      have harith : i + 1 + t2 + 1 = i + (t2 + 1) + 1 := by omega
      rw [harith] at this
      exact this

theorem chapterUnitItemsAux_mem_intro_cover :
    ∀ i vs t v, vs[t]? = some v → v.cover_image_path.isSome = true →
      (⟨chapterUnitId (i + t + 1) 0, volumeCoverChapterPath (i + t + 1),
        "application/xhtml+xml"⟩ : ManifestItem) ∈ chapterUnitItemsAux i vs := by
  intro i vs
  induction vs generalizing i with
  | nil => intro t v hget; simp at hget
  | cons w rest ih =>
    intro t v hget hcov
    rw [chapterUnitItemsAux]
    apply List.mem_append.mpr
    match t with
    | 0 =>
      left
      apply List.mem_append.mpr
      left
      simp at hget
      rw [hget]
      simp [hcov]
    | Nat.succ t2 =>
      right
      have := ih (i + 1) t2 v (by simpa using hget) hcov
      have harith : i + 1 + t2 + 1 = i + (t2 + 1) + 1 := by omega
      rw [harith] at this
      exact this

/-- C2: under the pipeline invariant that every stored content-document path
has a valid file name (the chapter processor always stores paths of the form
text/volume_NNN/chapter_NNN.xhtml), every idref of the spine occurs exactly
once among the manifest item ids, and each surviving unit has a manifest entry
whose href is exactly the path under which its content document was written:
the stored xhtml_path for a chapter unit, and the chapter-0 path written by
generate_volume_cover_chapter for a volume-cover unit. -/
theorem c2_spine_manifest_integrity (fs : ScanFS) (n : NovelInfo)
    (hpipe : ∀ v ∈ n.volumes, ∀ ch ∈ v.chapters, ∀ p, ch.xhtml_path = some p →
      (fileName p).isSome = true) :
    (∀ s ∈ spineIds n, (manifestIds fs n).count s = 1)
    ∧ (∀ i j vol ch p, n.volumes[i]? = some vol → vol.chapters[j]? = some ch →
        ch.xhtml_path = some p →
          (⟨chapterUnitId (i + 1) (j + 1), p, "application/xhtml+xml"⟩ : ManifestItem)
            ∈ manifestItems fs n)
    ∧ (∀ i vol, n.volumes[i]? = some vol → vol.cover_image_path.isSome = true →
        (⟨chapterUnitId (i + 1) 0, volumeCoverChapterPath (i + 1),
          "application/xhtml+xml"⟩ : ManifestItem) ∈ manifestItems fs n) := by
  have hm : manifestIds fs n = "ncx" :: "cover-image" ::
      ((volumeCoverItemsAux 0 n.volumes).map (fun it => it.id)
        ++ (imageItemsAux fs 0 n.volumes).map (fun it => it.id)
        ++ spineIds n) := by
    rw [manifestIds, manifestItems, List.map_cons, List.map_cons, List.map_append,
      List.map_append, map_id_chapterUnitItemsAux 0 n.volumes hpipe]
    rfl
  refine ⟨?_, ?_, ?_⟩
  · intro s hs
    have hform : ∃ a b, s = chapterUnitId a b := by
      obtain ⟨t, v, _, hcase⟩ := mem_spineVolAux 0 n.volumes hs
      rcases hcase with ⟨_, heq⟩ | ⟨u, ch, _, _, heq⟩
      · exact ⟨_, _, heq⟩
      · exact ⟨_, _, heq⟩
    obtain ⟨a, b, hsab⟩ := hform
    have h1 : (("ncx" : String) == s) = false := by
      rw [hsab]
      exact beq_eq_false_iff_ne.mpr (fun hh => chapterUnitId_ne_ncx a b hh.symm)
    have h2 : (("cover-image" : String) == s) = false := by
      rw [hsab]
      exact beq_eq_false_iff_ne.mpr (fun hh => chapterUnitId_ne_cover_image a b hh.symm)
    have h3 : List.count s ((volumeCoverItemsAux 0 n.volumes).map (fun it => it.id)) = 0 := by
      apply List.count_eq_zero.mpr
      intro hmem
      obtain ⟨it, hit, hid⟩ := List.mem_map.mp hmem
      obtain ⟨w, hw⟩ := mem_volumeCoverItemsAux 0 n.volumes hit
      rw [hsab] at hid
      rw [hw] at hid
      exact chapterUnitId_ne_volumeCoverItemId a b w hid.symm
    have h4 : List.count s ((imageItemsAux fs 0 n.volumes).map (fun it => it.id)) = 0 := by
      apply List.count_eq_zero.mpr
      intro hmem
      obtain ⟨it, hit, hid⟩ := List.mem_map.mp hmem
      obtain ⟨w, d, f, hw⟩ := mem_imageItemsAux 0 n.volumes hit
      rw [hsab] at hid
      rw [hw] at hid
      exact chapterUnitId_ne_imgItemId a b w d f hid.symm
    have h5 : List.count s (spineIds n) = 1 :=
      List.count_eq_one_of_mem (nodup_spineIds n) hs
    rw [hm, List.count_cons, List.count_cons, List.count_append, List.count_append,
      h1, h2, h3, h4, h5]
    simp
  · intro i j vol ch p hvol hch hp
    have hf : (fileName p).isSome = true :=
      hpipe vol (List.getElem?_mem hvol) ch (List.getElem?_mem hch) p hp
    have := chapterUnitItemsAux_mem_intro_chapter 0 n.volumes i vol j ch p hvol hch hp hf
    rw [manifestItems]
    apply List.mem_cons_of_mem
    apply List.mem_cons_of_mem
    apply List.mem_append.mpr
    right
    simpa using this
  · intro i vol hvol hcov
    have := chapterUnitItemsAux_mem_intro_cover 0 n.volumes i vol hvol hcov
    rw [manifestItems]
    apply List.mem_cons_of_mem
    apply List.mem_cons_of_mem
    apply List.mem_append.mpr
    right
    simpa using this

/-- C2 witness: on a concrete one-volume novel with one fetched chapter the
spine id occurs exactly once in the manifest and its entry carries the
written path. -/
theorem c2_spine_manifest_integrity_witness :
    (manifestIds (fun _ _ => [])
        ⟨"t", "a", none, "", none, [⟨"v1", "#vol1", none,
          [⟨"c1", "u1", false, some (chapterXhtmlRelPath 1 1)⟩]⟩], [], "u"⟩).count
        (chapterUnitId 1 1) = 1
    ∧ (⟨chapterUnitId 1 1, chapterXhtmlRelPath 1 1, "application/xhtml+xml"⟩ : ManifestItem)
        ∈ manifestItems (fun _ _ => [])
          ⟨"t", "a", none, "", none, [⟨"v1", "#vol1", none,
            [⟨"c1", "u1", false, some (chapterXhtmlRelPath 1 1)⟩]⟩], [], "u"⟩ := by
  have hpipe : ∀ v ∈ ([⟨"v1", "#vol1", none,
        [⟨"c1", "u1", false, some (chapterXhtmlRelPath 1 1)⟩]⟩] : List Volume),
      ∀ ch ∈ v.chapters, ∀ p, ch.xhtml_path = some p → (fileName p).isSome = true := by
    intro v hv ch hch p hp
    simp at hv
    rw [hv] at hch
    simp at hch
    rw [hch] at hp
    simp at hp
    rw [← hp, fileName_chapterXhtmlRelPath]
    rfl
  have h := c2_spine_manifest_integrity (fun _ _ => [])
    ⟨"t", "a", none, "", none, [⟨"v1", "#vol1", none,
      [⟨"c1", "u1", false, some (chapterXhtmlRelPath 1 1)⟩]⟩], [], "u"⟩ hpipe
  constructor
  · apply h.1
    simp [spineIds, spineVolAux, spineChAux]
  · exact h.2.1 0 0 _ _ (chapterXhtmlRelPath 1 1) rfl rfl rfl

/-! ### Claims C3 and C4: navigation structure and play order -/

/-- The navigation tree as the claim words it: exactly one top-level node per
volume with at least one surviving chapter (volumes with zero surviving
chapters contribute nothing, even with a resolved cover), one child per
surviving chapter in reading order, target the volume-cover document when a
cover is resolved and else the first surviving chapter's document path. -/
def specNavTree (n : NovelInfo) : List NavVolume :=
  n.volumes.enum.filterMap fun iv =>
    match iv.2.chapters.filter (fun c => c.xhtml_path.isSome) with
    | [] => none
    | first :: rest =>
      some ⟨iv.2.title,
        (if iv.2.cover_image_path.isSome then volumeCoverChapterPath (iv.1 + 1)
         else first.xhtml_path.getD ""),
        (first :: rest).map (fun c => ⟨c.title, c.xhtml_path.getD ""⟩)⟩

theorem navVolAux_eq :
    ∀ i vs, navVolAux i vs
      = (List.enumFrom i vs).filterMap fun iv =>
          match iv.2.chapters.filter (fun c => c.xhtml_path.isSome) with
          | [] => none
          | first :: rest =>
            some ⟨iv.2.title,
              (if iv.2.cover_image_path.isSome then volumeCoverChapterPath (iv.1 + 1)
               else first.xhtml_path.getD ""),
              (first :: rest).map (fun c => ⟨c.title, c.xhtml_path.getD ""⟩)⟩ := by
  intro i vs
  induction vs generalizing i with
  | nil => simp [navVolAux]
  | cons v rest ih =>
    rw [navVolAux, List.enumFrom_cons, List.filterMap_cons, ih (i + 1)]
    rcases hfil : v.chapters.filter (fun c => c.xhtml_path.isSome) with _ | ⟨first, tail⟩
    · simp [hfil]
    · simp only [hfil]
      rw [← hfil]
      simp [hfil]

theorem navVolAux_length :
    ∀ i vs, (navVolAux i vs).length
      = (vs.filter (fun v => !(v.chapters.filter (fun c => c.xhtml_path.isSome)).isEmpty)).length := by
  intro i vs
  induction vs generalizing i with
  | nil => simp [navVolAux]
  | cons v rest ih =>
    rw [navVolAux, List.length_append, ih (i + 1), List.filter]
    rcases hfil : v.chapters.filter (fun c => c.xhtml_path.isSome) with _ | ⟨first, tail⟩
    · simp [hfil]
    · simp [hfil]
      omega

/-- C3: the navigation tree has exactly one top-level node per volume with at
least one surviving chapter, each with one child per surviving chapter in
reading order; the node's target is the volume-cover document when the volume
has a resolved cover and otherwise the first surviving chapter's document
path; a volume with zero surviving chapters contributes no node even when it
has a resolved cover. -/
theorem c3_navigation_tree (n : NovelInfo) :
    navTree n = specNavTree n
    ∧ (navTree n).length
        = (n.volumes.filter
            (fun v => !(v.chapters.filter (fun c => c.xhtml_path.isSome)).isEmpty)).length := by
  constructor
  · rw [navTree, specNavTree, navVolAux_eq 0 n.volumes, List.enum_eq_enumFrom]
  · rw [navTree, navVolAux_length 0 n.volumes]

theorem navFlatChildren_length (cs : List NavPoint) :
    ∀ k, (navFlatChildren k cs).length = cs.length := by
  induction cs with
  | nil => intro k; simp [navFlatChildren]
  | cons c rest ih => intro k; rw [navFlatChildren]; simp [ih (k + 1)]

theorem navFlatChildren_map_fst (cs : List NavPoint) :
    ∀ k, (navFlatChildren k cs).map Prod.fst = List.range' k cs.length := by
  induction cs with
  | nil => intro k; simp [navFlatChildren]
  | cons c rest ih =>
    intro k
    rw [navFlatChildren, List.map_cons, ih (k + 1), List.length_cons, List.range'_succ]

theorem navFlatAux_map_fst :
    ∀ ts k, (navFlatAux k ts).map Prod.fst = List.range' k (navFlatAux k ts).length := by
  intro ts
  induction ts with
  | nil => intro k; simp [navFlatAux]
  | cons nv rest ih =>
    intro k
    rw [navFlatAux]
    simp only [List.map_cons, List.map_append, List.length_cons, List.length_append]
    rw [navFlatChildren_map_fst nv.children (k + 1), navFlatChildren_length nv.children,
      ih (k + 1 + nv.children.length)]
    have hr := List.range'_append (k + 1) nv.children.length
      (navFlatAux (k + 1 + nv.children.length) rest).length 1
    simp only [one_mul] at hr
    rw [hr, List.range'_succ]
    congr 1
    congr 1
    omega

/-- C4: the playOrder values of the navigation document form the consecutive
sequence 1, 2, 3, ... in document-emission order, incrementing by one for
every emitted navigation point, volume or chapter, regardless of nesting. -/
theorem c4_play_order_consecutive (n : NovelInfo) :
    (navFlat n).map Prod.fst = List.range' 1 (navFlat n).length := by
  rw [navFlat, navFlatAux_map_fst (navTree n) 1]

/-- C10: the generated manifest unconditionally contains the cover-image item
with href images/cover.jpg and media type image/jpeg, and the guide block
unconditionally references images/cover.jpg, for every novel — including one
with no resolved cover or a non-jpg cover — regardless of whether a file at
that path exists (src/epub.rs lines 94-96 and 189-196 are unconditional). -/
theorem c10_unconditional_cover_entries (fs : ScanFS) (n : NovelInfo) :
    (⟨"cover-image", "images/cover.jpg", "image/jpeg"⟩ : ManifestItem) ∈ manifestItems fs n
    ∧ ("cover", "Cover", "images/cover.jpg") ∈ guideRefs n := by
  constructor
  · rw [manifestItems]
    exact List.mem_cons_of_mem _ (List.mem_cons_self _ _)
  · simp [guideRefs]

/-! ### The archiver (src/epub.rs, compress_epub and add_directory_to_zip) -/

/-- A working-tree node: a plain file with content bytes (modelled as a
string) or a directory with its entries in read_dir order. -/
inductive FTree where
  | file (name : String) (content : String)
  | dir (name : String) (entries : List FTree)

/-- Zip storage mode: Stored (no compression) or the default Deflated. -/
inductive CMethod where
  | stored
  | deflated
deriving Repr, DecidableEq

/-- One member of the produced archive. -/
structure ZipEntry where
  name : String
  method : CMethod
  content : String
deriving Repr, DecidableEq

/-- Archive member name for an entry, src/epub.rs lines 394-406. -/
def joinPath (base nm : String) : String :=
  if base = "" then nm else base ++ "/" ++ nm

/-- add_directory_to_zip, src/epub.rs lines 380-416: walk the entries in
order; at the tree root any entry named mimetype is skipped (the check at
lines 387-390 runs before the directory test); directories are recursed into
depth-first; files are added with the default compression method. -/
def addDirEntries : List FTree → String → List ZipEntry
  | [], _ => []
  | FTree.file nm c :: rest, base =>
    (if nm = "mimetype" ∧ base = "" then []
     else [⟨joinPath base nm, CMethod.deflated, c⟩]) ++ addDirEntries rest base
  | FTree.dir nm es :: rest, base =>
    (if nm = "mimetype" ∧ base = "" then []
     else addDirEntries es (joinPath base nm)) ++ addDirEntries rest base

/-- Content of the root-level plain file with the given name, if any
(the mimetype_path.exists() / fs::read step of src/epub.rs lines 353-358). -/
def rootFileContent : List FTree → String → Option String
  | [], _ => none
  | FTree.file nm c :: rest, target =>
    if nm = target then some c else rootFileContent rest target
  | FTree.dir _ _ :: rest, target => rootFileContent rest target

/-- Output archive filename, src/epub.rs lines 338-343. -/
def epubFilename (dirName : String) : String :=
  if dirName.startsWith "epub_" then "docln_" ++ dirName.drop 5 ++ ".epub"
  else "docln_" ++ dirName ++ ".epub"

/-- The member list of the archive compress_epub produces from a working
tree, src/epub.rs lines 348-362: the root mimetype file first with the
Stored method, then the directory walk. -/
def compressEpubEntries (root : List FTree) : List ZipEntry :=
  (match rootFileContent root "mimetype" with
   | some c => [⟨"mimetype", CMethod.stored, c⟩]
   | none => [])
  ++ addDirEntries root ""

/-- All (archive path, content) pairs of file nodes of a tree, one per file
node, in traversal order. -/
def treeFilePaths : List FTree → String → List (String × String)
  | [], _ => []
  | FTree.file nm c :: rest, base => (joinPath base nm, c) :: treeFilePaths rest base
  | FTree.dir nm es :: rest, base =>
    treeFilePaths es (joinPath base nm) ++ treeFilePaths rest base

/-- Directory names throughout the tree are nonempty (true of any real
working tree; read_dir never yields empty entry names). -/
def dirNamesNonempty : List FTree → Bool
  | [] => true
  | FTree.file _ _ :: rest => dirNamesNonempty rest
  | FTree.dir nm es :: rest =>
    (!(nm = "")) && dirNamesNonempty es && dirNamesNonempty rest

theorem string_ne_empty_of_data_ne_nil {s : String} (h : s.data ≠ []) : s ≠ "" := by
  intro he
  rw [he] at h
  exact h rfl

theorem joinPath_data (base nm : String) (h : base ≠ "") :
    (joinPath base nm).data = base.data ++ '/' :: nm.data := by
  rw [joinPath, if_neg h, String.data_append, String.data_append]
  have hs : ("/" : String).data = ['/'] := rfl
  rw [hs, List.append_assoc]
  rfl

theorem joinPath_ne_mimetype (base nm : String) (h : base ≠ "") :
    joinPath base nm ≠ "mimetype" := by
  intro he
  have hd := congrArg String.data he
  rw [joinPath_data base nm h] at hd
  have hmem : '/' ∈ ("mimetype" : String).data := by
    rw [← hd]
    simp
  exact absurd hmem (by decide)

theorem joinPath_ne_empty (base nm : String) (h : base ≠ "") :
    joinPath base nm ≠ "" := by
  apply string_ne_empty_of_data_ne_nil
  rw [joinPath_data base nm h]
  simp

theorem addDirEntries_deflated :
    ∀ entries base, ∀ e ∈ addDirEntries entries base, e.method = CMethod.deflated := by
  intro entries base
  induction entries, base using addDirEntries.induct with
  | case1 base => simp [addDirEntries]
  | case2 nm c rest base ih =>
    intro e he
    rw [addDirEntries] at he
    rcases List.mem_append.mp he with hl | hr
    · split at hl
      · simp at hl
      · simp at hl
        rw [hl]
    · exact ih e hr
  | case3 nm es rest base ih1 ih2 =>
    intro e he
    rw [addDirEntries] at he
    rcases List.mem_append.mp he with hl | hr
    · split at hl
      · simp at hl
      · exact ih1 e hl
    · exact ih2 e hr

theorem addDirEntries_spec :
    ∀ entries base, dirNamesNonempty entries = true →
      (base = "" → ∀ nm es, FTree.dir nm es ∈ entries → nm ≠ "mimetype") →
      addDirEntries entries base
        = (treeFilePaths entries base).filterMap
            (fun pc => if pc.1 = "mimetype" then none
              else some ⟨pc.1, CMethod.deflated, pc.2⟩) := by
  intro entries base
  induction entries, base using addDirEntries.induct with
  | case1 base =>
    intro _ _
    simp [addDirEntries, treeFilePaths]
  | case2 nm c rest base ih =>
    intro hnames hroot
    have hnames2 : dirNamesNonempty rest = true := by
      rw [dirNamesNonempty] at hnames
      exact hnames
    have hroot2 : base = "" → ∀ nm2 es2, FTree.dir nm2 es2 ∈ rest → nm2 ≠ "mimetype" :=
      fun hb nm2 es2 hm => hroot hb nm2 es2 (List.mem_cons_of_mem _ hm)
    rw [addDirEntries, treeFilePaths, List.filterMap_cons, ih hnames2 hroot2]
    by_cases hb : base = ""
    · subst hb
      by_cases hnm : nm = "mimetype"
      · simp [hnm, joinPath]
      · simp [hnm, joinPath]
    · have hne := joinPath_ne_mimetype base nm hb
      have : ¬(nm = "mimetype" ∧ base = "") := fun hh => hb hh.2
      simp [this, hne]
  | case3 nm es rest base ih1 ih2 =>
    intro hnames hroot
    have hsplit : (!(nm = "")) = true ∧ dirNamesNonempty es = true
        ∧ dirNamesNonempty rest = true := by
      rw [dirNamesNonempty] at hnames
      simp only [Bool.and_eq_true] at hnames
      exact ⟨hnames.1.1, hnames.1.2, hnames.2⟩
    have hnm_ne : nm ≠ "" := by simpa using hsplit.1
    have hroot2 : base = "" → ∀ nm2 es2, FTree.dir nm2 es2 ∈ rest → nm2 ≠ "mimetype" :=
      fun hb nm2 es2 hm => hroot hb nm2 es2 (List.mem_cons_of_mem _ hm)
    have hcond : ¬(nm = "mimetype" ∧ base = "") := by
      rintro ⟨hnm, hb⟩
      exact hroot hb nm es (List.mem_cons_self _ _) hnm
    have hbase2 : joinPath base nm ≠ "" := by
      by_cases hb : base = ""
      · rw [hb, joinPath, if_pos rfl]
        exact hnm_ne
      · exact joinPath_ne_empty base nm hb
    have hroot3 : joinPath base nm = "" → ∀ nm2 es2, FTree.dir nm2 es2 ∈ es →
        nm2 ≠ "mimetype" := fun hb => absurd hb hbase2
    rw [addDirEntries, treeFilePaths, List.filterMap_append, if_neg hcond,
      ih1 hsplit.2.1 hroot3, ih2 hsplit.2.2 hroot2]

/-- C5: when the working tree holds the declaration file at its root, the
produced archive has mimetype as its first member, stored without compression
and byte-identical to the fixed marker; every other file of the tree is added
exactly once, with the default compression method, and the root-level
mimetype file is not added again by the traversal. The hypotheses on names
say the tree is a real directory tree: directory names are nonempty and no
root directory is named mimetype. -/
theorem c5_archive_layout (root : List FTree)
    (hmt : rootFileContent root "mimetype" = some mimetypeContent)
    (hnames : dirNamesNonempty root = true)
    (hnodir : ∀ nm es, FTree.dir nm es ∈ root → nm ≠ "mimetype") :
    (compressEpubEntries root).head?
      = some ⟨"mimetype", CMethod.stored, mimetypeContent⟩
    ∧ compressEpubEntries root
        = ⟨"mimetype", CMethod.stored, mimetypeContent⟩ :: addDirEntries root ""
    ∧ (∀ e ∈ addDirEntries root "", e.method = CMethod.deflated)
    ∧ addDirEntries root ""
        = (treeFilePaths root "").filterMap
            (fun pc => if pc.1 = "mimetype" then none
              else some ⟨pc.1, CMethod.deflated, pc.2⟩) := by
  have heq : compressEpubEntries root
      = ⟨"mimetype", CMethod.stored, mimetypeContent⟩ :: addDirEntries root "" := by
    rw [compressEpubEntries, hmt]
    rfl
  refine ⟨by rw [heq]; rfl, heq, addDirEntries_deflated root "", ?_⟩
  exact addDirEntries_spec root "" hnames (fun _ => hnodir)

/-- C5 witness: a two-file tree. -/
theorem c5_archive_layout_witness :
    (compressEpubEntries
        [FTree.file "mimetype" mimetypeContent,
         FTree.dir "OEBPS" [FTree.file "toc.ncx" "x"]]).head?
      = some ⟨"mimetype", CMethod.stored, mimetypeContent⟩
    ∧ (∀ e ∈ addDirEntries
        [FTree.file "mimetype" mimetypeContent,
         FTree.dir "OEBPS" [FTree.file "toc.ncx" "x"]] "",
        e.method = CMethod.deflated) := by
  have h := c5_archive_layout
    [FTree.file "mimetype" mimetypeContent,
     FTree.dir "OEBPS" [FTree.file "toc.ncx" "x"]]
    rfl (by simp [dirNamesNonempty]) (by
      intro nm es hm
      simp at hm
      rw [hm.1]
      decide)
  exact ⟨h.1, h.2.2.1⟩

/-! ### Failure behaviour of compress_epub (claim C6)

Fallible steps are numbered: step 0 is File::create, steps 1.. are the
member additions (start_file / read / write collapsed to one step each),
the step after the last member is zip.finish(). An oracle says which steps
succeed. The observable events record what was performed; the final
remove_dir_all (src/epub.rs lines 371-374, its own errors swallowed) is the
removedDir event and is reached only on the success path. -/

/-- Observable archiver events. -/
inductive ZipEvent where
  | created
  | added (name : String)
  | finished
  | removedDir
deriving Repr, DecidableEq

/-- Add the members one by one; stop at the first failing step, returning the
events performed so far and either the failing step or the next step index. -/
def addLoop (ok : Nat → Bool) : List ZipEntry → Nat → List ZipEvent × Except Nat Nat
  | [], k => ([], Except.ok k)
  | e :: rest, k =>
    if ok k then
      ((ZipEvent.added e.name) :: (addLoop ok rest (k + 1)).1, (addLoop ok rest (k + 1)).2)
    else ([], Except.error k)

/-- compress_epub, src/epub.rs lines 336-377, as events plus result: create
the archive file, add all members, finish, and only then remove the working
directory; every earlier failure returns that error immediately. -/
def compressRun (ok : Nat → Bool) (dirName : String) (root : List FTree) :
    List ZipEvent × Except Nat String :=
  if ok 0 then
    match addLoop ok (compressEpubEntries root) 1 with
    | (evs, Except.ok k) =>
      if ok k then
        (ZipEvent.created :: evs ++ [ZipEvent.finished, ZipEvent.removedDir],
         Except.ok (epubFilename dirName))
      else (ZipEvent.created :: evs, Except.error k)
    | (evs, Except.error i) => (ZipEvent.created :: evs, Except.error i)
  else ([], Except.error 0)

theorem addLoop_events (ok : Nat → Bool) :
    ∀ es k, ∀ ev ∈ (addLoop ok es k).1, ∃ nm, ev = ZipEvent.added nm := by
  intro es
  induction es with
  | nil => intro k ev hev; simp [addLoop] at hev
  | cons e rest ih =>
    intro k ev hev
    rw [addLoop] at hev
    by_cases hk : ok k
    · simp only [hk, if_true, List.mem_cons] at hev
      rcases hev with hl | hr
      · exact ⟨e.name, hl⟩
      · exact ih (k + 1) ev hr
    · simp [hk] at hev

/-- C6: the working directory is removed only after the archive is
successfully finalized; when creating the file, adding a member, or finishing
fails, the run returns that error and no directory removal happens. -/
theorem c6_delete_only_after_success (ok : Nat → Bool) (dirName : String)
    (root : List FTree) :
    ((compressRun ok dirName root).2.isOk = false →
      ZipEvent.removedDir ∉ (compressRun ok dirName root).1)
    ∧ ((compressRun ok dirName root).2.isOk = true →
      ∃ evs, (compressRun ok dirName root).1
          = ZipEvent.created :: evs ++ [ZipEvent.finished, ZipEvent.removedDir]
        ∧ ZipEvent.removedDir ∉ evs ∧ ZipEvent.finished ∉ evs) := by
  have hevs := addLoop_events ok (compressEpubEntries root) 1
  rw [compressRun]
  by_cases h0 : ok 0
  · simp only [h0, if_true]
    rcases hadd : addLoop ok (compressEpubEntries root) 1 with ⟨evs, res⟩
    rw [hadd] at hevs
    rcases res with i | k
    · constructor
      · intro _ hmem
        simp only [List.mem_cons] at hmem
        rcases hmem with hl | hl
        · cases hl
        · obtain ⟨nm, hnm⟩ := hevs _ hl
          cases hnm
      · intro hok2
        simp [Except.isOk, Except.toBool] at hok2
    · by_cases hk : ok k
      · simp only [hk, if_true]
        constructor
        · intro hfail
          simp [Except.isOk, Except.toBool] at hfail
        · intro _
          refine ⟨evs, rfl, ?_, ?_⟩
          · intro hmem
            obtain ⟨nm, hnm⟩ := hevs _ hmem
            cases hnm
          · intro hmem
            obtain ⟨nm, hnm⟩ := hevs _ hmem
            cases hnm
      · have hkf : ok k = false := by
          revert hk
          cases ok k <;> simp
        simp only [hkf, Bool.false_eq_true, if_false]
        constructor
        · intro _ hmem
          simp only [List.mem_cons] at hmem
          rcases hmem with hl | hl
          · cases hl
          · obtain ⟨nm, hnm⟩ := hevs _ hl
            cases hnm
        · intro hok2
          simp [Except.isOk, Except.toBool] at hok2
  · simp only [h0, if_false]
    constructor
    · intro _ hmem
      simp at hmem
    · intro hok2
      simp [Except.isOk, Except.toBool] at hok2

/-- C6 witness: with every step failing nothing is removed; with every step
succeeding the removal is the final event after finish. -/
theorem c6_delete_only_after_success_witness :
    (ZipEvent.removedDir ∉ (compressRun (fun _ => false) "epub_1" []).1)
    ∧ ∃ evs, (compressRun (fun _ => true) "epub_1" []).1
        = ZipEvent.created :: evs ++ [ZipEvent.finished, ZipEvent.removedDir]
      ∧ ZipEvent.removedDir ∉ evs ∧ ZipEvent.finished ∉ evs := by
  constructor
  · exact (c6_delete_only_after_success (fun _ => false) "epub_1" []).1
      (by simp [compressRun, Except.isOk, Except.toBool])
  · exact (c6_delete_only_after_success (fun _ => true) "epub_1" []).2
      (by simp [compressRun, compressEpubEntries, rootFileContent, addDirEntries,
        addLoop, Except.isOk, Except.toBool])

/-! ### Inline illustration processing
(src/crawler/processor.rs lines 146-232 and the identical
src/crawler.rs lines 82-164; the divergent src/main.rs variant,
lines 126-205, is embedded separately where it differs)

A fetched paragraph is modelled as its parsed fragments: literal text pieces
and img elements carrying their src attribute. -/

/-- One parsed fragment of a paragraph. -/
inductive Piece where
  | text (s : String)
  | img (src : String)
deriving Repr, DecidableEq

def isImgPiece : Piece → Bool
  | Piece.text _ => false
  | Piece.img _ => true

/-- File extension taken from the remote URL's path suffix, defaulting to
jpg (src/crawler/processor.rs lines 214-217). -/
def illustExtension (url : String) : String :=
  (pathExtension url).getD "jpg"

/-- Illustration file name: zero-padded sequence number plus the extension,
the zero-padded number, a dot, the extension (src/crawler/processor.rs line 220). -/
def illustFileName (num : Nat) (url : String) : String :=
  pad3 num ++ "." ++ illustExtension url

/-- Local relative path returned for a resolved illustration,
rendered as ../../images/volume_NNN/chapter_NNN/<file> with 1-based
ordinals (src/crawler/processor.rs line 231). -/
def downloadIllustrationPath (url : String) (num v c : Nat) : String :=
  "../../images/volume_" ++ pad3 (v + 1) ++ "/chapter_" ++ pad3 (c + 1) ++ "/"
    ++ illustFileName num url

/-- download_illustration as a fallible call: the network fetch succeeds or
fails according to the oracle (src/crawler/processor.rs lines 205-232). -/
def downloadIllustrationE (ok : String → Bool) (url : String) (num v c : Nat) :
    Except String String :=
  if ok url then Except.ok (downloadIllustrationPath url num v c)
  else Except.error url

/-- Processing of one parsed fragment against the running per-chapter
counter (src/crawler/processor.rs lines 173-197): an img with nonempty src is
downloaded; on success its src is replaced by the local path and the counter
advances; on failure the fragment is left unmodified and the counter does not
advance (the error branch at lines 191-193 only logs). -/
def processPiece (ok : String → Bool) (v c k : Nat) : Piece → Piece × Nat
  | Piece.text s => (Piece.text s, k)
  | Piece.img src =>
    if src = "" then (Piece.img src, k)
    else
      match downloadIllustrationE ok src k v c with
      | Except.ok localPath => (Piece.img localPath, k + 1)
      | Except.error _ => (Piece.img src, k)

/-- Left-to-right processing of a paragraph's fragments, threading the
counter. -/
def processPieces (ok : String → Bool) (v c : Nat) :
    List Piece → Nat → List Piece × Nat
  | [], k => ([], k)
  | p :: rest, k =>
    ((processPiece ok v c k p).1
        :: (processPieces ok v c rest (processPiece ok v c k p).2).1,
     (processPieces ok v c rest (processPiece ok v c k p).2).2)

/-- Left-to-right processing of all paragraphs of a chapter, threading the
per-chapter counter across paragraphs (it is not reset per paragraph). -/
def processParagraphs (ok : String → Bool) (v c : Nat) :
    List (List Piece) → Nat → List (List Piece) × Nat
  | [], k => ([], k)
  | para :: rest, k =>
    ((processPieces ok v c para k).1
        :: (processParagraphs ok v c rest (processPieces ok v c para k).2).1,
     (processParagraphs ok v c rest (processPieces ok v c para k).2).2)

/-- Serialization of a fragment back to html text. -/
def renderPiece : Piece → String
  | Piece.text s => s
  | Piece.img src => "<img src=\x22" ++ src ++ "\x22/>"

def renderPara (ps : List Piece) : String :=
  String.join (ps.map renderPiece)

/-- download_chapter_illustrations (src/crawler/processor.rs lines 146-203):
the counter starts at 1, the per-chapter illustration directory is created
unconditionally on entry (lines 158-162), the modified paragraphs are joined
with a newline, and the function returns Ok regardless of individual download
failures. -/
def downloadChapterIllustrations (ok : String → Bool) (v c : Nat)
    (paras : List (List Piece)) : Except String String :=
  Except.ok (String.intercalate "\n"
    ((processParagraphs ok v c paras 1).1.map renderPara))

/-- The chapter content part of fetch_chapter_content
(src/crawler/processor.rs lines 47-59) together with whether the per-chapter
illustration directory was created: the illustration path runs exactly when
the has-illustrations flag is set, and it creates the directory
unconditionally; the no-illustration path joins the raw paragraphs. -/
def chapterContentProcessor (ok : String → Bool) (v c : Nat) (hasIll : Bool)
    (paras : List (List Piece)) : String × Bool :=
  if hasIll then
    (String.intercalate "\n" ((processParagraphs ok v c paras 1).1.map renderPara), true)
  else
    (String.intercalate "\n" (paras.map renderPara), false)

/-- The xhtml document wrapper of fetch_chapter_content
(src/crawler/processor.rs lines 62-87), shared by both content paths. -/
def chapterXhtmlDoc (chapterTitle modifiedContent : String) : String :=
  "<?xml version=\x221.0\x22 encoding=\x22UTF-8\x22?>\n<!DOCTYPE html PUBLIC \x22-//W3C//DTD XHTML 1.1//EN\x22 \x22http://www.w3.org/TR/xhtml11/DTD/xhtml11.dtd\x22>\n<html xmlns=\x22http://www.w3.org/1999/xhtml\x22>\n<head>\n    <title>"
    ++ chapterTitle
    ++ "</title>\n    <meta http-equiv=\x22Content-Type\x22 content=\x22text/html; charset=UTF-8\x22/>\n</head>\n<body>\n    <h1>"
    ++ chapterTitle
    ++ "</h1>\n    <div class=\x22chapter-content\x22>\n"
    ++ modifiedContent
    ++ "    </div>\n</body>\n</html>"

/-- The rendered chapter document plus the directory-creation flag. -/
def fetchChapterContentProcessor (ok : String → Bool) (v c : Nat) (hasIll : Bool)
    (chapterTitle : String) (paras : List (List Piece)) : String × Bool :=
  (chapterXhtmlDoc chapterTitle (chapterContentProcessor ok v c hasIll paras).1,
   (chapterContentProcessor ok v c hasIll paras).2)

/-- The has_any_images pre-scan of the src/main.rs variant (lines 140-148):
true when some paragraph contains an img element. -/
def hasAnyImages (paras : List (List Piece)) : Bool :=
  paras.any (fun ps => ps.any isImgPiece)

theorem processPieces_append (ok : String → Bool) (v c : Nat) :
    ∀ l1 l2 k, processPieces ok v c (l1 ++ l2) k
      = ((processPieces ok v c l1 k).1
            ++ (processPieces ok v c l2 (processPieces ok v c l1 k).2).1,
         (processPieces ok v c l2 (processPieces ok v c l1 k).2).2) := by
  intro l1
  induction l1 with
  | nil => intro l2 k; simp [processPieces]
  | cons p rest ih =>
    intro l2 k
    rw [List.cons_append, processPieces, processPieces, ih]
    simp

/-- C7: when one inline illustration download fails, the containing fragment
keeps its original remote URL unmodified, the per-chapter counter does not
advance past it (the next successful reference receives the number the failed
one would have had), and the chapter illustration pass still returns Ok
(src/crawler/processor.rs lines 191-193 swallow the error). -/
theorem c7_failed_illustration_download (ok : String → Bool) (v c k : Nat)
    (pre suff : List Piece) (src : String) (hfail : ok src = false) :
    (processPieces ok v c (pre ++ Piece.img src :: suff) k).1
      = (processPieces ok v c pre k).1
        ++ Piece.img src
          :: (processPieces ok v c suff (processPieces ok v c pre k).2).1
    ∧ (processPieces ok v c (pre ++ Piece.img src :: suff) k).2
      = (processPieces ok v c suff (processPieces ok v c pre k).2).2
    ∧ (downloadChapterIllustrations ok v c [pre ++ Piece.img src :: suff]).isOk
        = true := by
  have hpiece : processPiece ok v c (processPieces ok v c pre k).2 (Piece.img src)
      = (Piece.img src, (processPieces ok v c pre k).2) := by
    by_cases hsrc : src = ""
    · simp [processPiece, hsrc]
    · simp [processPiece, hsrc, downloadIllustrationE, hfail]
  refine ⟨?_, ?_, ?_⟩
  · rw [processPieces_append, processPieces, hpiece]
  · rw [processPieces_append, processPieces, hpiece]
  · simp [downloadChapterIllustrations, Except.isOk, Except.toBool]

/-- C7 witness: a paragraph with a failing and then a succeeding download;
the failing fragment is kept verbatim and consumes no number. -/
theorem c7_failed_illustration_download_witness :
    (fun u : String => u == "good") "bad" = false
    ∧ (processPieces (fun u : String => u == "good") 0 0
          ([Piece.text "a"] ++ Piece.img "bad" :: [Piece.img "good"]) 1).1
        = (processPieces (fun u : String => u == "good") 0 0 [Piece.text "a"] 1).1
          ++ Piece.img "bad"
            :: (processPieces (fun u : String => u == "good") 0 0 [Piece.img "good"]
                  (processPieces (fun u : String => u == "good") 0 0 [Piece.text "a"] 1).2).1
    ∧ (downloadChapterIllustrations (fun u : String => u == "good") 0 0
        [[Piece.text "a"] ++ Piece.img "bad" :: [Piece.img "good"]]).isOk = true := by
  have h := c7_failed_illustration_download (fun u : String => u == "good") 0 0 1
    [Piece.text "a"] [Piece.img "good"] "bad" (by decide)
  exact ⟨by decide, h.1, h.2.2⟩

theorem downloadIllustrationPath_png_jpg_ne :
    downloadIllustrationPath "a.png" 1 0 0 ≠ downloadIllustrationPath "b.jpg" 1 0 0 := by
  intro h
  have e1 : illustExtension "a.png" = "png" := rfl
  have e2 : illustExtension "b.jpg" = "jpg" := rfl
  rw [downloadIllustrationPath, downloadIllustrationPath, illustFileName, illustFileName,
    e1, e2] at h
  have hd := congrArg (fun s : String => s.data.reverse) h
  simp [String.data_append, List.reverse_append] at hd

/-- C8 counterexample: two different URLs resolved at the same
(volume, chapter, counter) state yield different local paths, because the
extension is taken from the URL (src/crawler/processor.rs lines 214-217). -/
theorem c8_counterexample :
    ((downloadIllustrationPath "a.png" 1 0 0)
      == (downloadIllustrationPath "b.jpg" 1 0 0)) = false :=
  beq_eq_false_iff_ne.mpr downloadIllustrationPath_png_jpg_ne

/-- C8 amended: the local path is a pure function of (volume index, chapter
index, sequence number) and of the extension inferred from the URL, defaulting
to jpg when the URL has none; two URLs with the same inferred extension
resolved at the same state yield the same local path. -/
theorem c8_amended_path_pure (u1 u2 : String) (num v c : Nat)
    (hext : illustExtension u1 = illustExtension u2) :
    downloadIllustrationPath u1 num v c = downloadIllustrationPath u2 num v c := by
  rw [downloadIllustrationPath, downloadIllustrationPath, illustFileName, illustFileName,
    hext]

/-- C8 amended witness: an extensionless URL and an explicit .jpg URL share
the inferred extension (the jpg default) and resolve to the same local path. -/
theorem c8_amended_path_pure_witness :
    downloadIllustrationPath "noext" 2 3 4 = downloadIllustrationPath "y/b.jpg" 2 3 4 :=
  c8_amended_path_pure "noext" "y/b.jpg" 2 3 4 rfl

theorem processPieces_no_img (ok : String → Bool) (v c : Nat) :
    ∀ ps k, (∀ p ∈ ps, isImgPiece p = false) → processPieces ok v c ps k = (ps, k) := by
  intro ps
  induction ps with
  | nil => intro k _; simp [processPieces]
  | cons p rest ih =>
    intro k hno
    have hp : processPiece ok v c k p = (p, k) := by
      rcases p with s | src
      · simp [processPiece]
      · exact absurd (hno (Piece.img src) (List.mem_cons_self _ _)) (by simp [isImgPiece])
    rw [processPieces, hp]
    rw [ih k (fun q hq => hno q (List.mem_cons_of_mem p hq))]

theorem processParagraphs_no_img (ok : String → Bool) (v c : Nat) :
    ∀ paras k, (∀ para ∈ paras, ∀ p ∈ para, isImgPiece p = false) →
      processParagraphs ok v c paras k = (paras, k) := by
  intro paras
  induction paras with
  | nil => intro k _; simp [processParagraphs]
  | cons para rest ih =>
    intro k hno
    have hp := processPieces_no_img ok v c para k (hno para (List.mem_cons_self _ _))
    rw [processParagraphs, hp]
    rw [ih k (fun q hq => hno q (List.mem_cons_of_mem para hq))]

/-- C9 counterexample: in the library implementation
(src/crawler/processor.rs lines 158-162 and src/crawler.rs lines 94-98) the
per-chapter illustration directory is created unconditionally whenever the
has-illustrations flag is set — also for a chapter whose paragraphs contain
zero img references — contradicting the claim that no directory is created. -/
theorem c9_counterexample :
    (fetchChapterContentProcessor (fun _ => true) 0 0 true "t" [[Piece.text "p"]]).2 = true
    ∧ hasAnyImages [[Piece.text "p"]] = false :=
  ⟨rfl, rfl⟩

/-- C9 amended: a chapter flagged has-illustrations whose paragraphs contain
zero img references renders a content document identical to the
no-illustrations path; the src/main.rs variant creates no illustration
directory for it (its has_any_images pre-scan is false), but the
crawler.rs/processor.rs variants create the per-chapter directory
unconditionally when the flag is set. -/
theorem c9_amended_zero_img_chapter (ok : String → Bool) (v c : Nat)
    (title : String) (paras : List (List Piece))
    (hno : ∀ para ∈ paras, ∀ p ∈ para, isImgPiece p = false) :
    (fetchChapterContentProcessor ok v c true title paras).1
      = (fetchChapterContentProcessor ok v c false title paras).1
    ∧ (fetchChapterContentProcessor ok v c true title paras).2 = true
    ∧ hasAnyImages paras = false := by
  refine ⟨?_, rfl, ?_⟩
  · rw [fetchChapterContentProcessor, fetchChapterContentProcessor,
      chapterContentProcessor, chapterContentProcessor]
    simp [processParagraphs_no_img ok v c paras 1 hno]
  · rw [hasAnyImages]
    rw [List.any_eq_false]
    intro para hpara
    rw [Bool.not_eq_true, List.any_eq_false]
    intro p hp
    simp [hno para hpara p hp]

/-- C9 amended witness: a concrete flagged chapter with no img references. -/
theorem c9_amended_zero_img_chapter_witness :
    (fetchChapterContentProcessor (fun _ => true) 0 0 true "t" [[Piece.text "p"]]).1
      = (fetchChapterContentProcessor (fun _ => true) 0 0 false "t" [[Piece.text "p"]]).1
    ∧ hasAnyImages [[Piece.text "p"]] = false := by
  have h := c9_amended_zero_img_chapter (fun _ => true) 0 0 "t" [[Piece.text "p"]]
    (by
      intro para hpara p hp
      simp at hpara
      rw [hpara] at hp
      simp at hp
      rw [hp]
      rfl)
  exact ⟨h.1, h.2.2⟩

end DoclnFetch
